import Mathlib

/-!
# Verification of the doc-synchronizer generation script

Shallow embedding of `src/meta/gen.py`: texts are `List Char`; Python's
`str.split(sep)` and `re.split("a|b", s)` on literal alternatives are
modelled by a single greedy left-to-right scanner `pySplit` (fuelled so
that it is structural and kernel-evaluable).  The two in-script splices
are modelled as `splice_library` and `splice_readme`, returning `Option`
because the script's `parts[1]` / `parts[2]` indexing can fail.
-/

set_option maxHeartbeats 1000000

namespace Gen

/-- First separator from `seps` (in priority order, mirroring regex
alternation order) that matches at the head of `t`. -/
def findSep (seps : List (List Char)) (t : List Char) : Option (List Char) :=
  seps.find? (fun s => s.isPrefixOf t)

/-- Fuelled greedy left-to-right scan implementing Python `str.split` on a
literal separator (singleton `seps`) and `re.split` on an alternation of
literal separators (`seps` in alternation order).  At each position the
first matching separator is consumed and a new segment starts; otherwise
the character is appended to the current segment. -/
def pySplitGo (seps : List (List Char)) : Nat → List Char → List (List Char)
  | _, [] => [[]]
  | 0, t => [t]
  | fuel + 1, c :: rest =>
    match findSep seps (c :: rest) with
    | some s => [] :: pySplitGo seps fuel (List.drop s.length (c :: rest))
    | none =>
      match pySplitGo seps fuel rest with
      | [] => [[c]]
      | p :: ps => (c :: p) :: ps

/-- Python-style split: `pySplitGo` with enough fuel to scan the text. -/
def pySplit (seps : List (List Char)) (t : List Char) : List (List Char) :=
  pySplitGo seps t.length t

/-- Fuelled count of separator matches found by the greedy scan. -/
def countGo (seps : List (List Char)) : Nat → List Char → Nat
  | _, [] => 0
  | 0, _ => 0
  | fuel + 1, c :: rest =>
    match findSep seps (c :: rest) with
    | some s => countGo seps fuel (List.drop s.length (c :: rest)) + 1
    | none => countGo seps fuel rest

/-- Number of separator matches the greedy scan finds in `t`. -/
def countMatches (seps : List (List Char)) (t : List Char) : Nat :=
  countGo seps t.length t

/-- `hasSub sep t` decides whether `sep` occurs as a contiguous substring
of `t` (at any position). -/
def hasSub (sep : List Char) : List Char → Bool
  | [] => sep.isEmpty
  | c :: rest => sep.isPrefixOf (c :: rest) || hasSub sep rest

/-- `decorate(text, pre)` from `gen.py`:
`"\n".join([pre + line for line in text.split("\n")])`. -/
def decorate (text pre : List Char) : List Char :=
  List.intercalate ['\n'] ((pySplit [['\n']] text).map (fun line => pre ++ line))

/-- The library anchor the script splits on: `"// lib\n"`. -/
def libAnchor : List Char := "// lib\n".toList

/-- The readme usage anchor: `"# Usage\n"` (first regex alternative). -/
def usageAnchor : List Char := "# Usage\n".toList

/-- The readme logging anchor: `"# Logging\n"` (second regex alternative). -/
def loggingAnchor : List Char := "# Logging\n".toList

/-- The doc-comment line prefix `"//!"` passed to `decorate`. -/
def docPre : List Char := "//!".toList

/-- The glue `"\n\n// lib\n"` inserted between the decorated example and
the retained library tail. -/
def libGlue : List Char := "\n\n// lib\n".toList

/-- The literal `"# Usage\n\n```rust\n"` written before the example. -/
def usageHeader : List Char := "# Usage\n\n```rust\n".toList

/-- The literal `"```\n\n# Logging\n"` written after the example. -/
def loggingHeader : List Char := "```\n\n# Logging\n".toList

/-- The library splice of `gen.py`:
`parts = library_text.split("// lib\n")`;
`lib = decorate(example, "//!") + "\n\n// lib\n" + parts[1]`.
Returns `none` when `parts[1]` does not exist (the script's
index-out-of-range failure, i.e. MissingAnchorError). -/
def splice_library (ex lib : List Char) : Option (List Char) :=
  match (pySplit [libAnchor] lib)[1]? with
  | some p1 => some (decorate ex docPre ++ libGlue ++ p1)
  | none => none

/-- The readme splice of `gen.py`:
`parts = re.split("# Usage\n|# Logging\n", readme_text)`;
`readme = parts[0] + "# Usage\n\n```rust\n" + example + "```\n\n# Logging\n" + parts[2]`.
Returns `none` when `parts[0]` or `parts[2]` does not exist. -/
def splice_readme (ex rd : List Char) : Option (List Char) :=
  match (pySplit [usageAnchor, loggingAnchor] rd)[0]?,
        (pySplit [usageAnchor, loggingAnchor] rd)[2]? with
  | some p0, some p2 => some (p0 ++ usageHeader ++ ex ++ loggingHeader ++ p2)
  | _, _ => none

/-- Boolean prefix test agrees with the `<+:` relation. -/
theorem prefixBool_iff {l₁ l₂ : List Char} : l₁.isPrefixOf l₂ = true ↔ l₁ <+: l₂ :=
  List.isPrefixOf_iff_prefix

/-- A list is a Boolean prefix of itself followed by anything. -/
theorem isPrefixOf_append_self (l r : List Char) : l.isPrefixOf (l ++ r) = true :=
  prefixBool_iff.mpr ⟨r, rfl⟩

/-- Unfolding equation: the scan on the empty text yields one empty segment. -/
theorem pySplitGo_nil (seps : List (List Char)) (fuel : Nat) :
    pySplitGo seps fuel [] = [[]] := by
  cases fuel <;> rfl

/-- Unfolding equation for the scan on a nonempty text with fuel to spend. -/
theorem pySplitGo_cons (seps : List (List Char)) (fuel : Nat) (c : Char) (rest : List Char) :
    pySplitGo seps (fuel + 1) (c :: rest) =
      match findSep seps (c :: rest) with
      | some s => [] :: pySplitGo seps fuel (List.drop s.length (c :: rest))
      | none =>
        match pySplitGo seps fuel rest with
        | [] => [[c]]
        | p :: ps => (c :: p) :: ps := rfl

/-- The scan never returns an empty list of segments. -/
theorem pySplitGo_ne_nil (seps : List (List Char)) :
    ∀ fuel t, pySplitGo seps fuel t ≠ [] := by
  intro fuel
  induction fuel with
  | zero => intro t; cases t <;> simp [pySplitGo]
  | succ n ih =>
    intro t
    cases t with
    | nil => simp [pySplitGo_nil]
    | cons c rest =>
      rw [pySplitGo_cons]
      cases hf : findSep seps (c :: rest) with
      | some s => simp
      | none =>
        cases hr : pySplitGo seps n rest with
        | nil => simp
        | cons p ps => simp

/-- The first segment the scan produces is a prefix of the text. -/
theorem pySplitGo_headD_isPre (seps : List (List Char)) :
    ∀ fuel t, (pySplitGo seps fuel t).headD [] <+: t := by
  intro fuel
  induction fuel with
  | zero =>
    intro t
    cases t with
    | nil => simp [pySplitGo_nil]
    | cons c rest => simp [pySplitGo]
  | succ n ih =>
    intro t
    cases t with
    | nil => simp [pySplitGo_nil]
    | cons c rest =>
      rw [pySplitGo_cons]
      cases hf : findSep seps (c :: rest) with
      | some s => simp
      | none =>
        cases hr : pySplitGo seps n rest with
        | nil => simp
        | cons p ps =>
          have hp : p <+: rest := by
            have := ih rest
            rw [hr] at this
            simpa using this
          obtain ⟨r, hr2⟩ := hp
          exact ⟨r, by simp [hr2]⟩

/-- Any separator returned by `findSep` is one of the given separators. -/
theorem findSep_mem {seps : List (List Char)} {t s : List Char}
    (h : findSep seps t = some s) : s ∈ seps := by
  have h' : List.find? (fun s => s.isPrefixOf t) seps = some s := h
  exact List.mem_of_find?_eq_some h'

/-- Any separator returned by `findSep` matches at the head of the text. -/
theorem findSep_isPre {seps : List (List Char)} {t s : List Char}
    (h : findSep seps t = some s) : s <+: t := by
  have h' : List.find? (fun s => s.isPrefixOf t) seps = some s := h
  have h₂ := List.find?_some h'
  simp only at h₂
  exact prefixBool_iff.mp h₂

/-- Unfolding equation when a separator matches at the head. -/
theorem pySplitGo_cons_pos (seps : List (List Char)) (fuel : Nat) (c : Char)
    (rest s : List Char) (hf : findSep seps (c :: rest) = some s) :
    pySplitGo seps (fuel + 1) (c :: rest) =
      [] :: pySplitGo seps fuel (List.drop s.length (c :: rest)) := by
  rw [pySplitGo_cons, hf]

/-- Unfolding equation when no separator matches at the head. -/
theorem pySplitGo_cons_neg (seps : List (List Char)) (fuel : Nat) (c : Char)
    (rest : List Char) (hf : findSep seps (c :: rest) = none) :
    pySplitGo seps (fuel + 1) (c :: rest) =
      match pySplitGo seps fuel rest with
      | [] => [[c]]
      | p :: ps => (c :: p) :: ps := by
  rw [pySplitGo_cons, hf]

/-- With enough fuel to scan the whole text, the fuel does not matter
(provided no separator is empty). -/
theorem pySplitGo_fuel (seps : List (List Char)) (hne : [] ∉ seps) :
    ∀ f₁ f₂ t, t.length ≤ f₁ → t.length ≤ f₂ →
      pySplitGo seps f₁ t = pySplitGo seps f₂ t := by
  intro f₁
  induction f₁ with
  | zero =>
    intro f₂ t h₁ _
    have : t = [] := List.eq_nil_of_length_eq_zero (Nat.le_zero.mp h₁)
    subst this
    simp [pySplitGo_nil]
  | succ n ih =>
    intro f₂ t h₁ h₂
    cases t with
    | nil => simp [pySplitGo_nil]
    | cons c rest =>
      cases f₂ with
      | zero => simp at h₂
      | succ m =>
        cases hf : findSep seps (c :: rest) with
        | some s =>
          have hsne : s ≠ [] := fun h => hne (h ▸ findSep_mem hf)
          have hlen : (List.drop s.length (c :: rest)).length ≤ n := by
            have : 1 ≤ s.length := List.length_pos.mpr hsne
            simp only [List.length_drop, List.length_cons] at *
            omega
          have hlen₂ : (List.drop s.length (c :: rest)).length ≤ m := by
            have : 1 ≤ s.length := List.length_pos.mpr hsne
            simp only [List.length_drop, List.length_cons] at *
            omega
          rw [pySplitGo_cons_pos seps n c rest s hf, pySplitGo_cons_pos seps m c rest s hf,
            ih m _ hlen hlen₂]
        | none =>
          have hr : rest.length ≤ n := by simp at h₁; omega
          have hr₂ : rest.length ≤ m := by simp at h₂; omega
          rw [pySplitGo_cons_neg seps n c rest hf, pySplitGo_cons_neg seps m c rest hf,
            ih m rest hr hr₂]

/-- A scan with enough fuel computes `pySplit`. -/
theorem pySplitGo_eq_pySplit (seps : List (List Char)) (hne : [] ∉ seps)
    {fuel : Nat} {t : List Char} (h : t.length ≤ fuel) :
    pySplitGo seps fuel t = pySplit seps t :=
  pySplitGo_fuel seps hne fuel t.length t h (Nat.le_refl _)

/-- A text in which no separator occurs is returned as a single segment. -/
theorem pySplitGo_no_occur (seps : List (List Char)) :
    ∀ fuel t, (∀ s ∈ seps, hasSub s t = false) → pySplitGo seps fuel t = [t] := by
  intro fuel
  induction fuel with
  | zero =>
    intro t _
    cases t <;> simp [pySplitGo]
  | succ n ih =>
    intro t h
    cases t with
    | nil => simp [pySplitGo_nil]
    | cons c rest =>
      have hf : findSep seps (c :: rest) = none := by
        apply List.find?_eq_none.mpr
        intro s hs
        have := h s hs
        simp only [hasSub, Bool.or_eq_false_iff] at this
        simp [this.1]
      have hrest : ∀ s ∈ seps, hasSub s rest = false := by
        intro s hs
        have := h s hs
        simp only [hasSub, Bool.or_eq_false_iff] at this
        exact this.2
      rw [pySplitGo_cons, hf, ih rest hrest]

/-- `pySplit` of a separator-free text is the whole text as one segment. -/
theorem pySplit_no_occur (seps : List (List Char)) (t : List Char)
    (h : ∀ s ∈ seps, hasSub s t = false) : pySplit seps t = [t] :=
  pySplitGo_no_occur seps t.length t h

/-- Splitting a text of the form `A ++ s ++ B`, where the scan finds no
match strictly inside `A` and finds `s` right after it, yields `A`
followed by the segments of `B`. -/
theorem pySplitGo_append (seps : List (List Char)) (hne : [] ∉ seps)
    (s B : List Char) (hs : findSep seps (s ++ B) = some s) :
    ∀ A fuel, (∀ i < A.length, findSep seps ((A ++ s ++ B).drop i) = none) →
      (A ++ s ++ B).length ≤ fuel →
      pySplitGo seps fuel (A ++ s ++ B) = A :: pySplit seps B := by
  intro A
  induction A with
  | nil =>
    intro fuel _ hfuel
    have hsne : s ≠ [] := fun h => hne (h ▸ findSep_mem hs)
    cases s with
    | nil => exact absurd rfl hsne
    | cons c s' =>
      cases fuel with
      | zero => simp at hfuel
      | succ n =>
        simp only [List.nil_append]
        have heq : (c :: s') ++ B = c :: (s' ++ B) := rfl
        have hs' : findSep seps (c :: (s' ++ B)) = some (c :: s') := heq ▸ hs
        rw [heq, pySplitGo_cons_pos seps n c (s' ++ B) (c :: s') hs']
        have hdrop : List.drop (c :: s').length (c :: (s' ++ B)) = B := by
          rw [List.length_cons, List.drop_succ_cons, List.drop_left]
        rw [hdrop]
        have hlen : B.length ≤ n := by
          simp at hfuel
          omega
        rw [pySplitGo_eq_pySplit seps hne hlen]
  | cons a A' ih =>
    intro fuel h hfuel
    cases fuel with
    | zero => simp at hfuel
    | succ n =>
      have hhead : findSep seps (a :: (A' ++ s ++ B)) = none := by
        have := h 0 (by simp)
        simpa using this
      have hstep : (a :: A') ++ s ++ B = a :: (A' ++ s ++ B) := by simp
      rw [hstep, pySplitGo_cons_neg seps n a (A' ++ s ++ B) hhead]
      have hrec : pySplitGo seps n (A' ++ s ++ B) = A' :: pySplit seps B := by
        apply ih
        · intro i hi
          have := h (i + 1) (by simp; omega)
          simpa using this
        · have : (a :: (A' ++ s ++ B)).length ≤ n + 1 := hstep ▸ hfuel
          simp at this
          simp
          omega
      rw [hrec]

/-- No segment produced by the scan contains an occurrence of any
separator: the greedy scan always splits at the first occurrence it can
reach, so occurrences never survive inside a segment. -/
theorem pySplitGo_parts (seps : List (List Char)) (hne : [] ∉ seps) :
    ∀ fuel t, t.length ≤ fuel →
      ∀ p ∈ pySplitGo seps fuel t, ∀ s ∈ seps, hasSub s p = false := by
  intro fuel
  induction fuel with
  | zero =>
    intro t ht p hp s hs
    have : t = [] := List.eq_nil_of_length_eq_zero (Nat.le_zero.mp ht)
    subst this
    rw [pySplitGo_nil] at hp
    simp at hp
    subst hp
    cases s with
    | nil => exact absurd hs hne
    | cons a s' => simp [hasSub]
  | succ n ih =>
    intro t ht p hp s hs
    cases t with
    | nil =>
      rw [pySplitGo_nil] at hp
      simp at hp
      subst hp
      cases s with
      | nil => exact absurd hs hne
      | cons a s' => simp [hasSub]
    | cons c rest =>
      cases hf : findSep seps (c :: rest) with
      | some s₀ =>
        rw [pySplitGo_cons_pos seps n c rest s₀ hf] at hp
        rcases List.mem_cons.mp hp with h | h
        · subst h
          cases s with
          | nil => exact absurd hs hne
          | cons a s' => simp [hasSub]
        · have hs₀ne : s₀ ≠ [] := fun hh => hne (hh ▸ findSep_mem hf)
          have hlen : (List.drop s₀.length (c :: rest)).length ≤ n := by
            have : 1 ≤ s₀.length := List.length_pos.mpr hs₀ne
            simp only [List.length_drop, List.length_cons]
            simp only [List.length_cons] at ht
            omega
          exact ih _ hlen p h s hs
      | none =>
        rw [pySplitGo_cons_neg seps n c rest hf] at hp
        have hrlen : rest.length ≤ n := by
          simp only [List.length_cons] at ht
          omega
        cases hr : pySplitGo seps n rest with
        | nil => exact absurd hr (pySplitGo_ne_nil seps n rest)
        | cons q qs =>
          rw [hr] at hp
          rcases List.mem_cons.mp hp with h | h
          · subst h
            have hq : hasSub s q = false :=
              ih rest hrlen q (hr ▸ List.mem_cons_self q qs) s hs
            have hqpre : q <+: rest := by
              have := pySplitGo_headD_isPre seps n rest
              rw [hr] at this
              simpa using this
            simp only [hasSub, Bool.or_eq_false_iff]
            refine ⟨?_, hq⟩
            by_contra hcon
            have hcon' : s.isPrefixOf (c :: q) = true := by
              cases hcb : s.isPrefixOf (c :: q)
              · exact absurd hcb hcon
              · rfl
            have h₁ : s <+: c :: q := prefixBool_iff.mp hcon'
            have h₂ : (c :: q) <+: (c :: rest) := by
              obtain ⟨r, hr2⟩ := hqpre
              exact ⟨r, by simp [hr2]⟩
            have h₃ : s.isPrefixOf (c :: rest) = true :=
              prefixBool_iff.mpr (h₁.trans h₂)
            have := List.find?_eq_none.mp hf s hs
            simp at this
            exact absurd h₃ (by simp [this])
          · exact ih rest hrlen p (hr ▸ List.mem_cons_of_mem q h) s hs

/-- Segments of `pySplit` contain no separator occurrence. -/
theorem pySplit_parts (seps : List (List Char)) (hne : [] ∉ seps)
    {t p : List Char} (hp : p ∈ pySplit seps t) :
    ∀ s ∈ seps, hasSub s p = false :=
  pySplitGo_parts seps hne t.length t (Nat.le_refl _) p hp

/-- The scan produces one more segment than the number of matches. -/
theorem pySplitGo_length (seps : List (List Char)) :
    ∀ fuel t, (pySplitGo seps fuel t).length = countGo seps fuel t + 1 := by
  intro fuel
  induction fuel with
  | zero =>
    intro t
    cases t <;> simp [pySplitGo, countGo]
  | succ n ih =>
    intro t
    cases t with
    | nil => simp [pySplitGo_nil, countGo]
    | cons c rest =>
      cases hf : findSep seps (c :: rest) with
      | some s =>
        rw [pySplitGo_cons_pos seps n c rest s hf]
        simp only [countGo, hf, List.length_cons]
        rw [ih]
      | none =>
        rw [pySplitGo_cons_neg seps n c rest hf]
        simp only [countGo, hf]
        cases hr : pySplitGo seps n rest with
        | nil => exact absurd hr (pySplitGo_ne_nil seps n rest)
        | cons q qs =>
          have := ih rest
          rw [hr] at this
          simpa using this

/-- `pySplit` produces one more segment than `countMatches` finds. -/
theorem pySplit_length (seps : List (List Char)) (t : List Char) :
    (pySplit seps t).length = countMatches seps t + 1 :=
  pySplitGo_length seps t.length t

/-- Joining a single segment is the segment itself. -/
theorem inter_single (s x : List Char) : List.intercalate s [x] = x := by
  simp [List.intercalate]

/-- Joining at least two segments: first segment, separator, rest. -/
theorem inter_cons₂ (s x y : List Char) (l : List (List Char)) :
    List.intercalate s (x :: y :: l) = x ++ s ++ List.intercalate s (y :: l) := by
  simp [List.intercalate, List.intersperse]

/-- Joining the scan's segments with the separator recovers the text
(single-character separator, as used for `"\n"`). -/
theorem inter_pySplitGo (c : Char) :
    ∀ fuel t, List.intercalate [c] (pySplitGo [[c]] fuel t) = t := by
  intro fuel
  induction fuel with
  | zero =>
    intro t
    cases t with
    | nil => simp [pySplitGo_nil, inter_single]
    | cons d rest => simp [pySplitGo, inter_single]
  | succ n ih =>
    intro t
    cases t with
    | nil => simp [pySplitGo_nil, inter_single]
    | cons d rest =>
      cases hf : findSep [[c]] (d :: rest) with
      | some s =>
        have hs : s = [c] := by
          have := findSep_mem hf
          simpa using this
        subst hs
        have hdc : d = c := by
          have := findSep_isPre hf
          obtain ⟨r, hr⟩ := this
          simpa using congrArg (fun l => l.headD c) hr.symm
        rw [pySplitGo_cons_pos [[c]] n d rest [c] hf]
        have hdrop : List.drop ([c] : List Char).length (d :: rest) = rest := by simp
        rw [hdrop]
        cases hr : pySplitGo [[c]] n rest with
        | nil => exact absurd hr (pySplitGo_ne_nil [[c]] n rest)
        | cons q qs =>
          rw [inter_cons₂]
          have := ih rest
          rw [hr] at this
          simp [this, hdc]
      | none =>
        rw [pySplitGo_cons_neg [[c]] n d rest hf]
        cases hr : pySplitGo [[c]] n rest with
        | nil => exact absurd hr (pySplitGo_ne_nil [[c]] n rest)
        | cons q qs =>
          have hrec := ih rest
          rw [hr] at hrec
          cases qs with
          | nil =>
            rw [inter_single] at hrec
            simp [inter_single, hrec]
          | cons q₂ qs' =>
            rw [inter_cons₂] at hrec
            rw [inter_cons₂]
            simp only [List.cons_append, List.append_assoc] at *
            rw [hrec]

/-- Joining `pySplit`'s segments with the separator recovers the text. -/
theorem inter_pySplit (c : Char) (t : List Char) :
    List.intercalate [c] (pySplit [[c]] t) = t :=
  inter_pySplitGo c t.length t

/-- A character that is an element of `t` is found by `hasSub` as a
singleton substring, stated contrapositively. -/
theorem not_mem_of_hasSub_single {c : Char} {t : List Char}
    (h : hasSub [c] t = false) : c ∉ t := by
  induction t with
  | nil => simp
  | cons d rest ih =>
    simp only [hasSub, Bool.or_eq_false_iff] at h
    intro hmem
    rcases List.mem_cons.mp hmem with heq | hmem'
    · subst heq
      simp [List.isPrefixOf] at h
    · exact ih h.2 hmem'

/-- `hasSub` is monotone: any occurrence of the longer separator yields an
occurrence of a prefix of it. -/
theorem hasSub_mono {s₁ s₂ : List Char} (h : s₁ <+: s₂) :
    ∀ t, hasSub s₂ t = true → hasSub s₁ t = true := by
  intro t
  induction t with
  | nil =>
    simp only [hasSub]
    intro h₂
    have : s₂ = [] := by simpa using h₂
    subst this
    have : s₁ = [] := List.eq_nil_of_length_eq_zero
      (Nat.le_zero.mp (by simpa using h.length_le))
    simp [this]
  | cons c rest ih =>
    simp only [hasSub, Bool.or_eq_true]
    rintro (hp | hr)
    · exact Or.inl (prefixBool_iff.mpr (h.trans (prefixBool_iff.mp hp)))
    · exact Or.inr (ih hr)

/-- A text ending in the separator character splits into at least two
segments. -/
theorem pySplitGo_trailing_len (c : Char) :
    ∀ fuel X, (X ++ [c]).length ≤ fuel →
      2 ≤ (pySplitGo [[c]] fuel (X ++ [c])).length := by
  intro fuel
  induction fuel with
  | zero =>
    intro X h
    simp at h
  | succ n ih =>
    intro X h
    cases X with
    | nil =>
      have hf : findSep [[c]] ([c] : List Char) = some [c] := by
        simp [findSep, List.find?, List.isPrefixOf]
      have : ([] : List Char) ++ [c] = [c] := rfl
      rw [this, pySplitGo_cons_pos [[c]] n c [] [c] hf]
      simp [pySplitGo_nil]
    | cons d X' =>
      have hstep : (d :: X') ++ [c] = d :: (X' ++ [c]) := rfl
      rw [hstep]
      cases hf : findSep [[c]] (d :: (X' ++ [c])) with
      | some s =>
        rw [pySplitGo_cons_pos [[c]] n d (X' ++ [c]) s hf]
        have := pySplitGo_ne_nil [[c]] n (List.drop s.length (d :: (X' ++ [c])))
        simp only [List.length_cons]
        cases hg : pySplitGo [[c]] n (List.drop s.length (d :: (X' ++ [c]))) with
        | nil => exact absurd hg this
        | cons q qs => simp
      | none =>
        rw [pySplitGo_cons_neg [[c]] n d (X' ++ [c]) hf]
        have hlen : (X' ++ [c]).length ≤ n := by
          simp only [List.length_append, List.length_cons] at h ⊢
          simp
          omega
        have h2 := ih X' hlen
        cases hg : pySplitGo [[c]] n (X' ++ [c]) with
        | nil => exact absurd hg (pySplitGo_ne_nil [[c]] n (X' ++ [c]))
        | cons q qs =>
          rw [hg] at h2
          simp only [List.length_cons] at h2 ⊢
          omega

/-- The last segment of a text ending in the separator character is the
empty segment. -/
theorem pySplitGo_trailing_last (c : Char) :
    ∀ fuel X, (X ++ [c]).length ≤ fuel →
      (pySplitGo [[c]] fuel (X ++ [c])).getLast? = some [] := by
  intro fuel
  induction fuel with
  | zero =>
    intro X h
    simp at h
  | succ n ih =>
    intro X h
    cases X with
    | nil =>
      have hf : findSep [[c]] ([c] : List Char) = some [c] := by
        simp [findSep, List.find?, List.isPrefixOf]
      have heq : ([] : List Char) ++ [c] = [c] := rfl
      rw [heq, pySplitGo_cons_pos [[c]] n c [] [c] hf]
      simp [pySplitGo_nil]
    | cons d X' =>
      have hstep : (d :: X') ++ [c] = d :: (X' ++ [c]) := rfl
      have hlen : (X' ++ [c]).length ≤ n := by
        simp only [List.length_append, List.length_cons] at h
        simp
        omega
      rw [hstep]
      cases hf : findSep [[c]] (d :: (X' ++ [c])) with
      | some s =>
        have hs : s = [c] := by
          have := findSep_mem hf
          simpa using this
        subst hs
        rw [pySplitGo_cons_pos [[c]] n d (X' ++ [c]) [c] hf]
        have hdrop : List.drop ([c] : List Char).length (d :: (X' ++ [c])) = X' ++ [c] := by
          simp
        rw [hdrop]
        have hrec := ih X' hlen
        cases hg : pySplitGo [[c]] n (X' ++ [c]) with
        | nil => exact absurd hg (pySplitGo_ne_nil [[c]] n (X' ++ [c]))
        | cons q qs =>
          rw [hg] at hrec
          rw [List.getLast?_cons_cons]
          exact hrec
      | none =>
        rw [pySplitGo_cons_neg [[c]] n d (X' ++ [c]) hf]
        have hrec := ih X' hlen
        have hlen2 := pySplitGo_trailing_len c n X' hlen
        cases hg : pySplitGo [[c]] n (X' ++ [c]) with
        | nil => exact absurd hg (pySplitGo_ne_nil [[c]] n (X' ++ [c]))
        | cons q qs =>
          rw [hg] at hrec hlen2
          cases qs with
          | nil => simp at hlen2
          | cons q₂ qs' =>
            rw [List.getLast?_cons_cons] at hrec
            rw [List.getLast?_cons_cons]
            exact hrec

/-- A singleton substring query that succeeds means the character occurs. -/
theorem mem_of_hasSub_single {c : Char} {t : List Char}
    (h : hasSub [c] t = true) : c ∈ t := by
  induction t with
  | nil => simp [hasSub] at h
  | cons d rest ih =>
    simp only [hasSub, Bool.or_eq_true] at h
    rcases h with hp | hr
    · have : ([c] : List Char) <+: d :: rest := prefixBool_iff.mp hp
      obtain ⟨r, hr⟩ := this
      simp at hr
      simp [hr.1]
    · exact List.mem_cons_of_mem d (ih hr)

/-- A character absent from a text yields no singleton-substring match. -/
theorem hasSub_single_false {c : Char} {t : List Char} (h : c ∉ t) :
    hasSub [c] t = false := by
  cases hsub : hasSub [c] t with
  | false => rfl
  | true => exact absurd (mem_of_hasSub_single hsub) h

/-- No separator of the form `[c]` matches at the head of a text whose
first character is not `c`. -/
theorem findSep_single_none_of_head {c : Char} {t : List Char}
    (h : t.head? ≠ some c) : findSep [[c]] t = none := by
  cases t with
  | nil => simp [findSep, List.find?, List.isPrefixOf]
  | cons d rest =>
    have hdc : c ≠ d := fun hh => h (by simp [hh])
    have hbeq : (c == d) = false := by simp [hdc]
    simp [findSep, List.find?, List.isPrefixOf, hbeq]

/-- Splitting a separator-joined list of separator-free segments recovers
the segments (single-character separator). -/
theorem pySplit_inter (c : Char) :
    ∀ ms : List (List Char), ms ≠ [] → (∀ m ∈ ms, c ∉ m) →
      pySplit [[c]] (List.intercalate [c] ms) = ms := by
  intro ms
  induction ms with
  | nil => intro h; exact absurd rfl h
  | cons m ms' ih =>
    intro _ hfree
    cases ms' with
    | nil =>
      rw [inter_single]
      apply pySplit_no_occur
      intro s hs
      have : s = [c] := by simpa using hs
      subst this
      exact hasSub_single_false (hfree m (List.mem_cons_self m []))
    | cons m₂ ms'' =>
      rw [inter_cons₂]
      have hne : ([] : List Char) ∉ [[c]] := by simp
      set B := List.intercalate [c] (m₂ :: ms'') with hB
      have hfind : findSep [[c]] ([c] ++ B) = some [c] := by
        simp [findSep, List.find?, List.isPrefixOf]
      have hA : ∀ i < m.length, findSep [[c]] ((m ++ [c] ++ B).drop i) = none := by
        intro i hi
        apply findSep_single_none_of_head
        rw [List.append_assoc, List.drop_append_of_le_length (Nat.le_of_lt hi),
          List.drop_eq_getElem_cons hi]
        have hmem : m[i] ∈ m := List.getElem_mem hi
        have hic : m[i] ≠ c := fun hh => hfree m (List.mem_cons_self m _) (hh ▸ hmem)
        simp only [List.cons_append, List.head?_cons]
        simp only [ne_eq, Option.some.injEq]
        exact hic
      have hmain := pySplitGo_append [[c]] hne [c] B hfind m
        (m ++ [c] ++ B).length hA (Nat.le_refl _)
      have hw : pySplit [[c]] (m ++ [c] ++ B) =
          pySplitGo [[c]] (m ++ [c] ++ B).length (m ++ [c] ++ B) := rfl
      rw [hw, hmain, ih (by simp) (fun p hp => hfree p (List.mem_cons_of_mem m hp))]

/-- With a single separator, a failed prefix test means no match. -/
theorem findSep_none_single {s t : List Char} (h : s.isPrefixOf t = false) :
    findSep [s] t = none := by
  simp [findSep, List.find?, h]

/-- With two separators, two failed prefix tests mean no match. -/
theorem findSep_none_pair {s₁ s₂ t : List Char} (h₁ : s₁.isPrefixOf t = false)
    (h₂ : s₂.isPrefixOf t = false) : findSep [s₁, s₂] t = none := by
  simp [findSep, List.find?, h₁, h₂]

/-- A single separator matches at its own occurrence. -/
theorem findSep_self_single (s B : List Char) : findSep [s] (s ++ B) = some s := by
  simp [findSep, List.find?, isPrefixOf_append_self]

/-- The usage anchor matches first at its own occurrence. -/
theorem findSep_pair_usage (B : List Char) :
    findSep [usageAnchor, loggingAnchor] (usageAnchor ++ B) = some usageAnchor := by
  simp [findSep, List.find?, isPrefixOf_append_self]

/-- The usage anchor never matches where the logging anchor sits; their
third characters differ. -/
theorem usage_not_at_logging (B : List Char) :
    usageAnchor.isPrefixOf (loggingAnchor ++ B) = false := rfl

/-- The logging anchor never matches where the usage anchor sits. -/
theorem logging_not_at_usage (B : List Char) :
    loggingAnchor.isPrefixOf (usageAnchor ++ B) = false := rfl

/-- The logging anchor matches at its own occurrence (the usage
alternative, tried first, fails there). -/
theorem findSep_pair_logging (B : List Char) :
    findSep [usageAnchor, loggingAnchor] (loggingAnchor ++ B) = some loggingAnchor := by
  simp [findSep, List.find?, isPrefixOf_append_self, usage_not_at_logging]

/-- Splitting on one separator around its first occurrence: the text
before the occurrence becomes the first segment, and the scan continues
on the remainder. -/
theorem pySplit_split_single (s : List Char) (hs : s ≠ []) (A B : List Char)
    (hA : ∀ i < A.length, s.isPrefixOf ((A ++ s ++ B).drop i) = false) :
    pySplit [s] (A ++ s ++ B) = A :: pySplit [s] B := by
  have hne : ([] : List Char) ∉ [s] := by simp [Ne.symm hs]
  have hw : pySplit [s] (A ++ s ++ B) =
      pySplitGo [s] (A ++ s ++ B).length (A ++ s ++ B) := rfl
  rw [hw]
  exact pySplitGo_append [s] hne s B (findSep_self_single s B) A
    (A ++ s ++ B).length (fun i hi => findSep_none_single (hA i hi)) (Nat.le_refl _)

/-- Splitting on the readme anchor pair around a usage-anchor occurrence
preceded by match-free text. -/
theorem pySplit_split_usage (A B : List Char)
    (hA : ∀ i < A.length,
      usageAnchor.isPrefixOf ((A ++ usageAnchor ++ B).drop i) = false ∧
      loggingAnchor.isPrefixOf ((A ++ usageAnchor ++ B).drop i) = false) :
    pySplit [usageAnchor, loggingAnchor] (A ++ usageAnchor ++ B) =
      A :: pySplit [usageAnchor, loggingAnchor] B := by
  have hne : ([] : List Char) ∉ [usageAnchor, loggingAnchor] := by
    simp [usageAnchor, loggingAnchor]
  have hw : pySplit [usageAnchor, loggingAnchor] (A ++ usageAnchor ++ B) =
      pySplitGo [usageAnchor, loggingAnchor] (A ++ usageAnchor ++ B).length
        (A ++ usageAnchor ++ B) := rfl
  rw [hw]
  exact pySplitGo_append [usageAnchor, loggingAnchor] hne usageAnchor B
    (findSep_pair_usage B) A (A ++ usageAnchor ++ B).length
    (fun i hi => findSep_none_pair (hA i hi).1 (hA i hi).2) (Nat.le_refl _)

/-- Splitting on the readme anchor pair around a logging-anchor occurrence
preceded by match-free text. -/
theorem pySplit_split_logging (A B : List Char)
    (hA : ∀ i < A.length,
      usageAnchor.isPrefixOf ((A ++ loggingAnchor ++ B).drop i) = false ∧
      loggingAnchor.isPrefixOf ((A ++ loggingAnchor ++ B).drop i) = false) :
    pySplit [usageAnchor, loggingAnchor] (A ++ loggingAnchor ++ B) =
      A :: pySplit [usageAnchor, loggingAnchor] B := by
  have hne : ([] : List Char) ∉ [usageAnchor, loggingAnchor] := by
    simp [usageAnchor, loggingAnchor]
  have hw : pySplit [usageAnchor, loggingAnchor] (A ++ loggingAnchor ++ B) =
      pySplitGo [usageAnchor, loggingAnchor] (A ++ loggingAnchor ++ B).length
        (A ++ loggingAnchor ++ B) := rfl
  rw [hw]
  exact pySplitGo_append [usageAnchor, loggingAnchor] hne loggingAnchor B
    (findSep_pair_logging B) A (A ++ loggingAnchor ++ B).length
    (fun i hi => findSep_none_pair (hA i hi).1 (hA i hi).2) (Nat.le_refl _)

/-- `pySplit` always produces at least one segment. -/
theorem pySplit_ne_nil (seps : List (List Char)) (t : List Char) :
    pySplit seps t ≠ [] :=
  pySplitGo_ne_nil seps t.length t

/-- C5: `decorate(T, P)` returns the newline-join of the `P`-prefixed
newline-segments of `T`; those segments joined with newline recover `T`
exactly (so they are the lines of `T`); there is one segment per newline
match plus one; and when `T` ends with a newline the final prefixed
segment is `P` followed by the empty line. -/
theorem decorate_spec (T P : List Char) :
    decorate T P =
        List.intercalate ['\n'] ((pySplit [['\n']] T).map (fun l => P ++ l)) ∧
      List.intercalate ['\n'] (pySplit [['\n']] T) = T ∧
      (pySplit [['\n']] T).length = countMatches [['\n']] T + 1 ∧
      (T.getLast? = some '\n' →
        ((pySplit [['\n']] T).map (fun l => P ++ l)).getLast? = some P) := by
  refine ⟨rfl, inter_pySplit '\n' T, pySplit_length _ T, ?_⟩
  intro hT
  have hTsplit : T.dropLast ++ ['\n'] = T :=
    List.dropLast_append_getLast? '\n' hT
  have hlast : (pySplit [['\n']] T).getLast? = some [] := by
    have := pySplitGo_trailing_last '\n' T.length T.dropLast
      (by rw [hTsplit])
    rw [hTsplit] at this
    exact this
  rw [List.getLast?_map, hlast]
  simp

/-- C5 witness: the trailing-newline clause at a concrete input. -/
theorem decorate_spec_witness :
    ((pySplit [['\n']] "a\n".toList).map
      (fun l => "//!".toList ++ l)).getLast? = some "//!".toList :=
  (decorate_spec "a\n".toList "//!".toList).2.2.2 (by decide)

/-- C6 as stated is false: decorating `"x"` with `"a"` and then with
`"b"` yields `"bax"`, whose line is not the original line prefixed with
`P1 ++ P2 = "ab"`. -/
theorem decorate_twice_counterexample :
    decorate (decorate "x".toList "a".toList) "b".toList ≠
      List.intercalate ['\n'] ((pySplit [['\n']] "x".toList).map
        (fun l => ("a".toList ++ "b".toList) ++ l)) := by
  decide

/-- C6 amended: if the first prefix contains no newline, decorating with
`P1` and then `P2` prefixes every original line with `P2 ++ P1` — that
is, it equals a single decoration with `P2 ++ P1`. -/
theorem decorate_twice (T P₁ P₂ : List Char) (h : '\n' ∉ P₁) :
    decorate (decorate T P₁) P₂ = decorate T (P₂ ++ P₁) := by
  have hnn : ([] : List Char) ∉ [['\n']] := by simp
  have hms : pySplit [['\n']] (decorate T P₁) =
      (pySplit [['\n']] T).map (fun l => P₁ ++ l) := by
    show pySplit [['\n']] (List.intercalate ['\n'] _) = _
    apply pySplit_inter
    · simp [pySplit_ne_nil]
    · intro m hm
      obtain ⟨l, hl, hlm⟩ := List.mem_map.mp hm
      subst hlm
      intro hmem
      rcases List.mem_append.mp hmem with hc | hc
      · exact h hc
      · exact absurd hc
          (not_mem_of_hasSub_single (pySplit_parts [['\n']] hnn hl ['\n'] (by simp)))
  show List.intercalate ['\n'] _ = List.intercalate ['\n'] _
  rw [hms, List.map_map]
  congr 1
  apply List.map_congr_left
  intro l _
  simp [List.append_assoc]

/-- C6 amended, witness at a concrete input. -/
theorem decorate_twice_witness :
    decorate (decorate "x".toList "a".toList) "b".toList =
      decorate "x".toList ("b".toList ++ "a".toList) :=
  decorate_twice "x".toList "a".toList "b".toList (by decide)

/-- C7: a library text with no occurrence of `"// lib"` (hence none of
the full marker line) makes the split return a single segment, so the
script's `parts[1]` does not exist and `splice_library` fails. -/
theorem splice_library_missing_anchor (ex t : List Char)
    (h : hasSub "// lib".toList t = false) : splice_library ex t = none := by
  have h₂ : hasSub libAnchor t = false := by
    cases hc : hasSub libAnchor t with
    | false => rfl
    | true =>
      have hmono : hasSub "// lib".toList t = true :=
        hasSub_mono ⟨['\n'], by decide⟩ t hc
      rw [hmono] at h
      exact absurd h (by simp)
  have hsplit : pySplit [libAnchor] t = [t] := by
    apply pySplit_no_occur
    intro s hs
    have : s = libAnchor := by simpa using hs
    subst this
    exact h₂
  simp [splice_library, hsplit]

/-- C7 witness: a marker-free text makes the library splice fail. -/
theorem splice_library_missing_anchor_witness :
    hasSub "// lib".toList "hello\nworld\n".toList = false ∧
      splice_library "E".toList "hello\nworld\n".toList = none :=
  ⟨by decide, splice_library_missing_anchor "E".toList "hello\nworld\n".toList (by decide)⟩

/-- C8: on a library text `A ++ "// lib\n" ++ B` whose marker occurs
exactly there (no occurrence starts inside `A`, none occurs in `B`),
`splice_library` succeeds and its output ends with `B`, the exact tail
that followed the marker line, byte for byte. -/
theorem splice_library_tail (ex A B : List Char)
    (h₁ : ∀ i < A.length, libAnchor.isPrefixOf ((A ++ libAnchor ++ B).drop i) = false)
    (h₂ : hasSub libAnchor B = false) :
    ∃ out, splice_library ex (A ++ libAnchor ++ B) = some out ∧ B <:+ out := by
  have hsplit := pySplit_split_single libAnchor (by decide) A B h₁
  have hB : pySplit [libAnchor] B = [B] := by
    apply pySplit_no_occur
    intro s hs
    have : s = libAnchor := by simpa using hs
    subst this
    exact h₂
  rw [hB] at hsplit
  simp only [List.append_assoc] at hsplit
  refine ⟨decorate ex docPre ++ libGlue ++ B, ?_,
    ⟨decorate ex docPre ++ libGlue, by simp⟩⟩
  simp [splice_library, hsplit]

/-- C8 witness at the end-to-end scenario's library text. -/
theorem splice_library_tail_witness :
    ∃ out, splice_library "fn main() {}\n".toList
        ("old header\n".toList ++ libAnchor ++ "fn keep() {}\n".toList) = some out ∧
      "fn keep() {}\n".toList <:+ out :=
  splice_library_tail "fn main() {}\n".toList "old header\n".toList
    "fn keep() {}\n".toList (by decide) (by decide)

/-- C1 as stated is false: with two marker occurrences, the text after
the first occurrence is `"Y// lib\nZ"`, but the output's retained tail is
only `"Y"` — the claimed tail does not even occur in the output. -/
theorem splice_library_later_marker_dropped :
    splice_library "E".toList "X// lib\nY// lib\nZ".toList =
        some "//!E\n\n// lib\nY".toList ∧
      hasSub "Y// lib\nZ".toList "//!E\n\n// lib\nY".toList = false := by
  decide

/-- C1 amended: with two (or more) marker occurrences, the first is the
split point but the retained tail is only the text strictly between the
first and second occurrences; everything from the second occurrence on is
dropped. -/
theorem splice_library_between_markers (ex A B C : List Char)
    (h₁ : ∀ i < A.length,
      libAnchor.isPrefixOf ((A ++ libAnchor ++ (B ++ libAnchor ++ C)).drop i) = false)
    (h₂ : ∀ i < B.length, libAnchor.isPrefixOf ((B ++ libAnchor ++ C).drop i) = false) :
    splice_library ex (A ++ libAnchor ++ (B ++ libAnchor ++ C)) =
      some (decorate ex docPre ++ libGlue ++ B) := by
  have hs₂ := pySplit_split_single libAnchor (by decide) B C h₂
  have hs₁ := pySplit_split_single libAnchor (by decide) A (B ++ libAnchor ++ C) h₁
  rw [hs₂] at hs₁
  simp only [List.append_assoc] at hs₁
  simp [splice_library, hs₁]

/-- C1 amended, witness: two markers, tail between them retained. -/
theorem splice_library_between_markers_witness :
    splice_library "E".toList
        ("X".toList ++ libAnchor ++ ("Y".toList ++ libAnchor ++ "Z".toList)) =
      some (decorate "E".toList docPre ++ libGlue ++ "Y".toList) :=
  splice_library_between_markers "E".toList "X".toList "Y".toList "Z".toList
    (by decide) (by decide)

/-- C10: anchor matching is substring-based, not whole-line-based.  A
library marker occurrence in the middle of a line (the preceding segment
`A` ends with a non-newline character) still splits there, and likewise
mid-line readme anchors still split the readme; both splices succeed. -/
theorem anchors_are_substrings (ex A B P₀ M P₂ : List Char) (a b₀ bm : Char)
    (hAlast : A.getLast? = some a) (ha : a ≠ '\n')
    (h₁ : ∀ i < A.length, libAnchor.isPrefixOf ((A ++ libAnchor ++ B).drop i) = false)
    (h₂ : hasSub libAnchor B = false)
    (hPlast : P₀.getLast? = some b₀) (hb₀ : b₀ ≠ '\n')
    (hMlast : M.getLast? = some bm) (hbm : bm ≠ '\n')
    (h₃ : ∀ i < P₀.length,
      usageAnchor.isPrefixOf
        ((P₀ ++ usageAnchor ++ (M ++ loggingAnchor ++ P₂)).drop i) = false ∧
      loggingAnchor.isPrefixOf
        ((P₀ ++ usageAnchor ++ (M ++ loggingAnchor ++ P₂)).drop i) = false)
    (h₄ : ∀ i < M.length,
      usageAnchor.isPrefixOf ((M ++ loggingAnchor ++ P₂).drop i) = false ∧
      loggingAnchor.isPrefixOf ((M ++ loggingAnchor ++ P₂).drop i) = false)
    (h₅ : hasSub usageAnchor P₂ = false) (h₆ : hasSub loggingAnchor P₂ = false) :
    splice_library ex (A ++ libAnchor ++ B) =
        some (decorate ex docPre ++ libGlue ++ B) ∧
      splice_readme ex (P₀ ++ usageAnchor ++ (M ++ loggingAnchor ++ P₂)) =
        some (P₀ ++ usageHeader ++ ex ++ loggingHeader ++ P₂) := by
  constructor
  · have hsplit := pySplit_split_single libAnchor (by decide) A B h₁
    have hB : pySplit [libAnchor] B = [B] := by
      apply pySplit_no_occur
      intro s hs
      have : s = libAnchor := by simpa using hs
      subst this
      exact h₂
    rw [hB] at hsplit
    simp only [List.append_assoc] at hsplit
    simp [splice_library, hsplit]
  · have hP₂ : pySplit [usageAnchor, loggingAnchor] P₂ = [P₂] := by
      apply pySplit_no_occur
      intro s hs
      rcases (by simpa using hs : s = usageAnchor ∨ s = loggingAnchor) with h | h <;>
        subst h
      · exact h₅
      · exact h₆
    have hs₂ := pySplit_split_logging M P₂ h₄
    have hs₁ := pySplit_split_usage P₀ (M ++ loggingAnchor ++ P₂) h₃
    rw [hs₂, hP₂] at hs₁
    simp only [List.append_assoc] at hs₁
    simp [splice_readme, hs₁]

/-- C10 witness: both anchors occur mid-line and both splices succeed. -/
theorem anchors_are_substrings_witness :
    splice_library "E".toList ("x".toList ++ libAnchor ++ "Y".toList) =
        some (decorate "E".toList docPre ++ libGlue ++ "Y".toList) ∧
      splice_readme "E".toList
          ("a".toList ++ usageAnchor ++ ("b".toList ++ loggingAnchor ++ "c".toList)) =
        some ("a".toList ++ usageHeader ++ "E".toList ++ loggingHeader ++ "c".toList) :=
  anchors_are_substrings "E".toList "x".toList "Y".toList "a".toList "b".toList
    "c".toList 'x' 'a' 'b' (by decide) (by decide) (by decide) (by decide)
    (by decide) (by decide) (by decide) (by decide) (by decide) (by decide)
    (by decide) (by decide)

/-- The readme splice fails exactly when the split has no third segment
(the script's `parts[2]` indexing): the first segment always exists. -/
theorem splice_readme_none_iff (ex rd : List Char) :
    splice_readme ex rd = none ↔
      (pySplit [usageAnchor, loggingAnchor] rd)[2]? = none := by
  cases hp : pySplit [usageAnchor, loggingAnchor] rd with
  | nil => exact absurd hp (pySplit_ne_nil _ _)
  | cons p ps =>
    cases h₂ : ps[1]? with
    | some q => simp [splice_readme, hp, h₂]
    | none => simp [splice_readme, hp, h₂]

/-- C2 as stated is false: a readme with both anchors in reverse order
(`# Logging` before `# Usage`) still yields three segments, so
`splice_readme` succeeds instead of failing. -/
theorem splice_readme_reverse_order_succeeds :
    splice_readme "E".toList "A# Logging\nB# Usage\nC".toList =
      some "A# Usage\n\n```rust\nE```\n\n# Logging\nC".toList := by
  decide

/-- C2 amended: `splice_readme` fails precisely when the anchor pattern
(either `"# Usage\n"` or `"# Logging\n"`) matches fewer than two times in
total; which anchors match, and in which order, is irrelevant. -/
theorem splice_readme_missing_anchor (ex rd : List Char) :
    splice_readme ex rd = none ↔
      countMatches [usageAnchor, loggingAnchor] rd < 2 := by
  rw [splice_readme_none_iff, List.getElem?_eq_none_iff]
  have := pySplit_length [usageAnchor, loggingAnchor] rd
  omega

/-- C4 as stated is false: with three anchor matches, the text after the
second match is `"C# Logging\nD"`, but the output keeps only `"C"` — the
segment between the second and third matches. -/
theorem splice_readme_third_match_dropped :
    splice_readme "E".toList "A# Usage\nB# Logging\nC# Logging\nD".toList =
        some "A# Usage\n\n```rust\nE```\n\n# Logging\nC".toList ∧
      "A# Usage\n\n```rust\nE```\n\n# Logging\nC".toList ≠
        "A# Usage\n\n```rust\nE```\n\n# Logging\nC# Logging\nD".toList := by
  decide

/-- C4 amended: for every readme with at least two anchor matches — of
either species, in either order — written as `p₀`, a first matching
anchor `s₁`, `B`, a second matching anchor `s₂`, and the remainder `R`,
the output is segment 0 (`p₀`), the usage header, the example, the
logging header, and segment 2, where segment 2 is the remainder `R` up
to its first further match: all of `R` when no third match exists, and
only the text before the third match otherwise (text from a third match
onward is dropped). -/
theorem splice_readme_seg2 (ex p₀ B R s₁ s₂ : List Char)
    (hs₁ : s₁ = usageAnchor ∨ s₁ = loggingAnchor)
    (hs₂ : s₂ = usageAnchor ∨ s₂ = loggingAnchor)
    (h₁ : ∀ i < p₀.length,
      usageAnchor.isPrefixOf ((p₀ ++ s₁ ++ (B ++ s₂ ++ R)).drop i) = false ∧
      loggingAnchor.isPrefixOf ((p₀ ++ s₁ ++ (B ++ s₂ ++ R)).drop i) = false)
    (h₂ : ∀ i < B.length,
      usageAnchor.isPrefixOf ((B ++ s₂ ++ R).drop i) = false ∧
      loggingAnchor.isPrefixOf ((B ++ s₂ ++ R).drop i) = false) :
    splice_readme ex (p₀ ++ s₁ ++ (B ++ s₂ ++ R)) =
        some (p₀ ++ usageHeader ++ ex ++ loggingHeader ++
          (pySplit [usageAnchor, loggingAnchor] R).headD []) ∧
      (hasSub usageAnchor R = false → hasSub loggingAnchor R = false →
        (pySplit [usageAnchor, loggingAnchor] R).headD [] = R) := by
  have hinner : pySplit [usageAnchor, loggingAnchor] (B ++ s₂ ++ R) =
      B :: pySplit [usageAnchor, loggingAnchor] R := by
    rcases hs₂ with h | h <;> subst h
    · exact pySplit_split_usage B R h₂
    · exact pySplit_split_logging B R h₂
  have houter : pySplit [usageAnchor, loggingAnchor] (p₀ ++ s₁ ++ (B ++ s₂ ++ R)) =
      p₀ :: pySplit [usageAnchor, loggingAnchor] (B ++ s₂ ++ R) := by
    rcases hs₁ with h | h <;> subst h
    · exact pySplit_split_usage p₀ (B ++ s₂ ++ R) h₁
    · exact pySplit_split_logging p₀ (B ++ s₂ ++ R) h₁
  rw [hinner] at houter
  constructor
  · cases hR : pySplit [usageAnchor, loggingAnchor] R with
    | nil => exact absurd hR (pySplit_ne_nil _ _)
    | cons q qs =>
      rw [hR] at houter
      simp only [List.append_assoc] at houter
      simp [splice_readme, houter, hR]
  · intro hu hl
    have hone : pySplit [usageAnchor, loggingAnchor] R = [R] := by
      apply pySplit_no_occur
      intro s hs
      rcases (by simpa using hs : s = usageAnchor ∨ s = loggingAnchor) with h | h <;>
        subst h
      · exact hu
      · exact hl
    simp [hone]

/-- C4 amended, witness: exactly two matches, in reverse species order
(logging first); segment 2 is everything after the second match. -/
theorem splice_readme_seg2_witness :
    (splice_readme "E".toList
        ("A".toList ++ loggingAnchor ++ ("B".toList ++ usageAnchor ++ "C".toList)) =
      some ("A".toList ++ usageHeader ++ "E".toList ++ loggingHeader ++
        (pySplit [usageAnchor, loggingAnchor] "C".toList).headD [])) ∧
      (hasSub usageAnchor "C".toList = false → hasSub loggingAnchor "C".toList = false →
        (pySplit [usageAnchor, loggingAnchor] "C".toList).headD [] = "C".toList) :=
  splice_readme_seg2 "E".toList "A".toList "B".toList "C".toList
    loggingAnchor usageAnchor (Or.inr rfl) (Or.inl rfl) (by decide) (by decide)

/-- C3: the end-to-end scenario — both splices produce exactly the
expected new library text and new readme text. -/
theorem end_to_end_scenario :
    splice_library "fn main() {}\n".toList
        "old header\n// lib\nfn keep() {}\n".toList =
      some "//!fn main() {}\n//!\n\n// lib\nfn keep() {}\n".toList ∧
    splice_readme "fn main() {}\n".toList
        "Intro\n# Usage\nold usage\n# Logging\nLog info".toList =
      some "Intro\n# Usage\n\n```rust\nfn main() {}\n```\n\n# Logging\nLog info".toList := by
  decide

/-- C9 as stated is false: when the example text itself ends a line with
`"// lib"`, the first run succeeds on all files, but the second library
run splits inside the decorated example and produces a different file. -/
theorem second_run_differs :
    splice_library "x// lib\n".toList "A\n// lib\nB".toList =
        some "//!x// lib\n//!\n\n// lib\nB".toList ∧
      splice_readme "x// lib\n".toList "Intro\n# Usage\nU\n# Logging\nL".toList =
        some "Intro\n# Usage\n\n```rust\nx// lib\n```\n\n# Logging\nL".toList ∧
      splice_library "x// lib\n".toList "//!x// lib\n//!\n\n// lib\nB".toList =
        some "//!x// lib\n//!\n\n// lib\n//!\n\n".toList ∧
      "//!x// lib\n//!\n\n// lib\n//!\n\n".toList ≠
        "//!x// lib\n//!\n\n// lib\nB".toList := by
  decide

/-- C9 amended: a second run with the same example reproduces both
first-run outputs byte for byte, provided no marker occurrence starts
inside the decorated example block of the new library text and no anchor
match starts inside the preamble or the inserted usage block of the new
readme text (conditions that can fail only when the example itself
carries marker or anchor text, as the counterexample shows). -/
theorem run_idempotent (ex lib rd B p₀ p₂ : List Char)
    (hB : (pySplit [libAnchor] lib)[1]? = some B)
    (hp₀ : (pySplit [usageAnchor, loggingAnchor] rd)[0]? = some p₀)
    (hp₂ : (pySplit [usageAnchor, loggingAnchor] rd)[2]? = some p₂)
    (hL : ∀ i < (decorate ex docPre ++ "\n\n".toList).length,
      libAnchor.isPrefixOf
        (((decorate ex docPre ++ "\n\n".toList) ++ libAnchor ++ B).drop i) = false)
    (hU : ∀ i < p₀.length,
      usageAnchor.isPrefixOf ((p₀ ++ usageAnchor ++
        (("\n```rust\n".toList ++ ex ++ "```\n\n".toList) ++
          loggingAnchor ++ p₂)).drop i) = false ∧
      loggingAnchor.isPrefixOf ((p₀ ++ usageAnchor ++
        (("\n```rust\n".toList ++ ex ++ "```\n\n".toList) ++
          loggingAnchor ++ p₂)).drop i) = false)
    (hM : ∀ i < ("\n```rust\n".toList ++ ex ++ "```\n\n".toList).length,
      usageAnchor.isPrefixOf
        ((("\n```rust\n".toList ++ ex ++ "```\n\n".toList) ++
          loggingAnchor ++ p₂).drop i) = false ∧
      loggingAnchor.isPrefixOf
        ((("\n```rust\n".toList ++ ex ++ "```\n\n".toList) ++
          loggingAnchor ++ p₂).drop i) = false) :
    splice_library ex lib = some (decorate ex docPre ++ libGlue ++ B) ∧
      splice_library ex (decorate ex docPre ++ libGlue ++ B) =
        some (decorate ex docPre ++ libGlue ++ B) ∧
      splice_readme ex rd = some (p₀ ++ usageHeader ++ ex ++ loggingHeader ++ p₂) ∧
      splice_readme ex (p₀ ++ usageHeader ++ ex ++ loggingHeader ++ p₂) =
        some (p₀ ++ usageHeader ++ ex ++ loggingHeader ++ p₂) := by
  have hneL : ([] : List Char) ∉ [libAnchor] := by decide
  have hneR : ([] : List Char) ∉ [usageAnchor, loggingAnchor] := by decide
  have hBmem : B ∈ pySplit [libAnchor] lib := List.getElem?_mem hB
  have hBfree : hasSub libAnchor B = false :=
    pySplit_parts [libAnchor] hneL hBmem libAnchor (by simp)
  have hBsplit : pySplit [libAnchor] B = [B] := by
    apply pySplit_no_occur
    intro s hs
    have : s = libAnchor := by simpa using hs
    subst this
    exact hBfree
  have happ := pySplit_split_single libAnchor (by decide)
    (decorate ex docPre ++ "\n\n".toList) B hL
  rw [hBsplit] at happ
  simp only [List.append_assoc] at happ
  simp at happ
  have hglue : libGlue = "\n\n".toList ++ libAnchor := rfl
  refine ⟨by simp [splice_library, hB], ?_, by simp [splice_readme, hp₀, hp₂], ?_⟩
  · simp [splice_library, hglue, happ]
  · have hp₂mem : p₂ ∈ pySplit [usageAnchor, loggingAnchor] rd := List.getElem?_mem hp₂
    have hUfree : hasSub usageAnchor p₂ = false :=
      pySplit_parts _ hneR hp₂mem usageAnchor (by simp)
    have hLfree : hasSub loggingAnchor p₂ = false :=
      pySplit_parts _ hneR hp₂mem loggingAnchor (by simp)
    have hP₂split : pySplit [usageAnchor, loggingAnchor] p₂ = [p₂] := by
      apply pySplit_no_occur
      intro s hs
      rcases (by simpa using hs : s = usageAnchor ∨ s = loggingAnchor) with h | h <;>
        subst h
      · exact hUfree
      · exact hLfree
    have hs₂ := pySplit_split_logging
      ("\n```rust\n".toList ++ ex ++ "```\n\n".toList) p₂ hM
    have hs₁ := pySplit_split_usage p₀
      (("\n```rust\n".toList ++ ex ++ "```\n\n".toList) ++ loggingAnchor ++ p₂) hU
    rw [hs₂, hP₂split] at hs₁
    simp only [List.append_assoc] at hs₁
    simp at hs₁
    have huh : usageHeader = usageAnchor ++ "\n```rust\n".toList := rfl
    have hlh : loggingHeader = "```\n\n".toList ++ loggingAnchor := rfl
    simp [splice_readme, huh, hlh, hs₁]

/-- C9 amended, witness: the end-to-end scenario's inputs are a fixpoint
of the second run. -/
theorem run_idempotent_witness :
    splice_library "fn main() {}\n".toList
        "old header\n// lib\nfn keep() {}\n".toList =
      some (decorate "fn main() {}\n".toList docPre ++ libGlue ++
        "fn keep() {}\n".toList) ∧
    splice_library "fn main() {}\n".toList
        (decorate "fn main() {}\n".toList docPre ++ libGlue ++
          "fn keep() {}\n".toList) =
      some (decorate "fn main() {}\n".toList docPre ++ libGlue ++
        "fn keep() {}\n".toList) ∧
    splice_readme "fn main() {}\n".toList
        "Intro\n# Usage\nold usage\n# Logging\nLog info".toList =
      some ("Intro\n".toList ++ usageHeader ++ "fn main() {}\n".toList ++
        loggingHeader ++ "Log info".toList) ∧
    splice_readme "fn main() {}\n".toList
        ("Intro\n".toList ++ usageHeader ++ "fn main() {}\n".toList ++
          loggingHeader ++ "Log info".toList) =
      some ("Intro\n".toList ++ usageHeader ++ "fn main() {}\n".toList ++
        loggingHeader ++ "Log info".toList) :=
  run_idempotent "fn main() {}\n".toList
    "old header\n// lib\nfn keep() {}\n".toList
    "Intro\n# Usage\nold usage\n# Logging\nLog info".toList
    "fn keep() {}\n".toList "Intro\n".toList "Log info".toList
    (by decide) (by decide) (by decide) (by decide) (by decide) (by decide)

end Gen
